import Mathlib

/-!
Verification development for the graph execution engine specified by the
repository's spec (LearnLangGraph).  The repository's own files are
configurations of a third-party orchestration engine; the engine itself
(StateSchema, Channels/Reducers, Scheduler, CheckpointStore) is not part of
the repository sources, so it is modelled here from the specification text.
Conditional-edge predicate functions that do live in the repository
(`route_decision` from p14_4_routing.py, `route_joke` from
p14_6_Evaluator-Optimizer.py) are embedded directly from the source.
-/

namespace LG

/-- Atomic values that can appear inside list-valued state fields. -/
inductive Atom where
  | aInt (n : Int)
  | aStr (s : String)
  deriving DecidableEq, Repr

/-- Values stored in state fields: integers, strings, and lists of atoms. -/
inductive Value where
  | vInt (n : Int)
  | vStr (s : String)
  | vList (xs : List Atom)
  deriving DecidableEq, Repr

/-- Modelled from the spec: per-field merge policy (`replace` | `append` |
`custom(fn)`), §3.  The engine is not in the repository sources; a `custom`
reducer carries the user merge function together with the field's initial
value used when the field has no prior value. -/
inductive Reducer where
  | replace
  | append
  | custom (f : Value → Value → Value) (dflt : Value)

abbrev FieldName := String

/-- Modelled from the spec: ordered mapping from field name to reducer kind. -/
abbrev StateSchema := List (FieldName × Reducer)

/-- A state value: association list from field name to value (first hit wins). -/
abbrev StateV := List (FieldName × Value)

/-- A node's partial output: ordered list of (field, value) writes. -/
abbrev PartialState := List (FieldName × Value)

/-- Look a field up in a state (first binding wins). -/
def getField (s : StateV) (k : FieldName) : Option Value :=
  (s.find? (fun p => p.1 == k)).map (fun p => p.2)

/-- View a value as a list of atoms (lists unchanged, scalars as singletons). -/
def asAtoms : Value → List Atom
  | .vList xs => xs
  | .vInt n => [.aInt n]
  | .vStr s => [.aStr s]

/-- Modelled from the spec: one Channel commit for a single field, §4.2/§3.
Zero contributions leave the prior value unchanged; `replace` takes the last
writer's value; `append` concatenates all contributions after the prior
value; `custom` folds all contributions through the user function. -/
def reduceContribs (r : Reducer) (old : Option Value) : List Value → Option Value
  | [] => old
  | c :: cs =>
    match r with
    | .replace => some (cs.foldl (fun _ v => v) c)
    | .append =>
        some (.vList ((match old with
          | some v => asAtoms v
          | none => []) ++ (c :: cs).flatMap asAtoms))
    | .custom f dflt => some ((c :: cs).foldl f (old.getD dflt))

/-- Contributions to one field, in the order the writes are listed. -/
def writesFor (f : FieldName) (ws : PartialState) : List Value :=
  (ws.filter (fun p => p.1 == f)).map (fun p => p.2)

/-- Node outputs tagged with the node's registration index in the frontier. -/
abbrev TaggedWrites := List (Nat × PartialState)

/-- Tag a list of outputs with consecutive indices starting at `j`. -/
def tagFrom (j : Nat) : List PartialState → TaggedWrites
  | [] => []
  | a :: l => (j, a) :: tagFrom (j + 1) l

/-- Rearrange delivered (possibly completion-ordered) outputs back into
registration order, the stable tiebreak the spec fixes for `replace` and
`append` fields (§3, §5). -/
def regOrderWrites (k : Nat) (delivered : TaggedWrites) : PartialState :=
  (List.range k).flatMap
    (fun i => (delivered.filter (fun p => p.1 == i)).flatMap (fun p => p.2))

/-- The contributions one field sees in a superstep: `replace`/`append`
fields read the delivered writes re-sorted into registration order, `custom`
fields read them in delivery order (the engine guarantees no specific writer
order for them, §3). -/
def contribsFor (r : Reducer) (f : FieldName) (k : Nat)
    (delivered : TaggedWrites) : List Value :=
  match r with
  | .custom _ _ => writesFor f (delivered.flatMap (fun p => p.2))
  | _ => writesFor f (regOrderWrites k delivered)

/-- Modelled from the spec: commit of one superstep's buffered writes
through the Channels, §4.2.  Fields with zero contributions keep their prior
value; fields with no prior value and no contributions stay absent. -/
def commitTagged (schema : StateSchema) (old : StateV) (k : Nat)
    (delivered : TaggedWrites) : StateV :=
  schema.filterMap (fun fr =>
    (reduceContribs fr.2 (getField old fr.1)
        (contribsFor fr.2 fr.1 k delivered)).map (fun v => (fr.1, v)))

/-- Modelled from the spec: a named node with a body `State -> PartialState`. -/
structure Node where
  name : String
  body : StateV → PartialState

/-- Modelled from the spec: the three edge kinds of §3 — static, conditional
(predicate plus label map), and dynamic fan-out (producer of
(target, payload) pairs). -/
inductive EdgeKind where
  | static (dst : String)
  | conditional (pred : StateV → Option String) (labelMap : List (String × String))
  | fanout (producer : StateV → List (String × PartialState))

/-- Modelled from the spec: a compiled graph — schema, nodes, edges. -/
structure Graph where
  schema : StateSchema
  nodes : List Node
  edges : List (String × EdgeKind)

/-- The START pseudo-node name. -/
def STARTN : String := "__start__"

/-- The END pseudo-node name. -/
def ENDN : String := "__end__"

/-- A scheduled task: node name plus per-task payload (empty for ordinary
tasks, the fan-out payload for Send-style tasks). -/
structure Task where
  name : String
  payload : PartialState
  deriving DecidableEq, Repr

/-- The body registered for a node name (unknown names write nothing). -/
def bodyOf (g : Graph) (n : String) : StateV → PartialState :=
  match g.nodes.find? (fun nd => nd.name == n) with
  | some nd => nd.body
  | none => fun _ => []

/-- Merge a task payload over the read-only state view (payload fields win). -/
def overlay (s : StateV) (payload : PartialState) : StateV :=
  payload ++ s

/-- Modelled from the spec: the error taxonomy of §7 as far as the claims
need it (configuration errors carry a message). -/
inductive EngineError where
  | configurationError (msg : String)
  deriving DecidableEq, Repr

/-- Modelled from the spec: evaluation of one out-edge against the
post-merge state, §4.3.  A conditional predicate returning no label, or a
label absent from the map, is a fatal configuration error at the point of
evaluation. -/
def evalEdge (st : StateV) : EdgeKind → Except EngineError (List Task)
  | .static d => .ok [⟨d, []⟩]
  | .conditional pred m =>
      match pred st with
      | none => .error (.configurationError "conditional edge produced no label")
      | some l =>
          match m.find? (fun p => p.1 == l) with
          | some p => .ok [⟨p.2, []⟩]
          | none => .error (.configurationError ("label not in map: " ++ l))
  | .fanout producer => .ok ((producer st).map (fun p => ⟨p.1, p.2⟩))

/-- All successor tasks of one node, evaluated against the post-merge state. -/
def nextFrontierFor (g : Graph) (st : StateV) (n : String) :
    Except EngineError (List Task) :=
  ((g.edges.filter (fun e => e.1 == n)).mapM (fun e => evalEdge st e.2)).map
    List.flatten

/-- Successor tasks of all just-run nodes, in registration order. -/
def nextFrontier (g : Graph) (st : StateV) (ran : List String) :
    Except EngineError (List Task) :=
  (ran.mapM (nextFrontierFor g st)).map List.flatten

/-- Deduplicate ordinary (payload-free) tasks by node name, keeping the
first occurrence; fan-out task instances are all kept. -/
def dedupGo (seen : List String) : List Task → List Task
  | [] => []
  | t :: ts =>
      if t.payload.isEmpty && seen.contains t.name then dedupGo seen ts
      else t :: dedupGo (if t.payload.isEmpty then t.name :: seen else seen) ts

/-- A frontier with duplicate ordinary tasks removed. -/
def dedupFrontier (ts : List Task) : List Task :=
  dedupGo [] ts

/-- Run every frontier task against the shared pre-superstep state view. -/
def runTasks (g : Graph) (st : StateV) (fr : List Task) : List PartialState :=
  fr.map (fun t => bodyOf g t.name (overlay st t.payload))

/-- Reorder tagged outputs by a completion order `p`; an invalid `p` (not a
permutation of the index range) is ignored. -/
def applyPerm (p : List Nat) (l : TaggedWrites) : TaggedWrites :=
  if p.Perm (List.range l.length) then p.filterMap (fun i => l[i]?) else l

/-- Post-merge state of one superstep whose outputs are delivered in the
completion order `p`. -/
def mergeFrontier (g : Graph) (p : List Nat) (st : StateV) (fr : List Task) :
    StateV :=
  let outs := runTasks g st fr
  commitTagged g.schema st outs.length (applyPerm p (tagFrom 0 outs))

/-- Modelled from the spec: one superstep of the sequential scheduler
embedding, §4.3/§5 — run the frontier against the shared snapshot, merge
through the Channels in registration order, then evaluate out-edges of the
just-run nodes against the post-merge state. -/
def superstep (g : Graph) (st : StateV) (fr : List Task) :
    Except EngineError (StateV × List Task) :=
  let outs := runTasks g st fr
  let st' := commitTagged g.schema st outs.length (tagFrom 0 outs)
  (nextFrontier g st' (fr.map (fun t => t.name))).map
    (fun nf => (st', dedupFrontier nf))

/-- Modelled from the spec: one superstep of the concurrent scheduler
embedding — identical to `superstep` except that node outputs reach the
Channels in the completion order `p`. -/
def superstepWith (g : Graph) (p : List Nat) (st : StateV) (fr : List Task) :
    Except EngineError (StateV × List Task) :=
  let st' := mergeFrontier g p st fr
  (nextFrontier g st' (fr.map (fun t => t.name))).map
    (fun nf => (st', dedupFrontier nf))

/-- Modelled from the spec: a checkpoint record — step number, full state,
stored next-frontier node names, §3/§6. -/
structure Checkpoint where
  step : Int
  state : StateV
  next : List String
  deriving DecidableEq, Repr

/-- Terminal status of a run. -/
inductive RunStatus where
  | completed
  | failed (e : EngineError)
  | outOfFuel
  deriving DecidableEq, Repr

/-- Result of driving the scheduler: final state, status, and the
checkpoint store for the thread (newest first). -/
structure RunResult where
  state : StateV
  status : RunStatus
  checkpoints : List Checkpoint

/-- In-flight scheduler position: step number of the last committed
superstep, current state, current frontier. -/
structure RunCfg where
  step : Int
  state : StateV
  frontier : List Task
  deriving Repr

/-- Modelled from the spec: termination test — the frontier is empty or
consists solely of END, §4.3. -/
def isDone (fr : List Task) : Bool :=
  fr.all (fun t => t.name == ENDN)

/-- Modelled from the spec: the RUNNING loop of the sequential scheduler
embedding, §4.3 — repeatedly run a superstep, append exactly one checkpoint
per completed superstep (step = previous + 1), stop when done; node or
configuration failure fails the run. -/
def runLoop (g : Graph) : Nat → RunCfg → List Checkpoint → RunResult
  | 0, c, cps =>
      if isDone c.frontier then ⟨c.state, .completed, cps⟩
      else ⟨c.state, .outOfFuel, cps⟩
  | fuel + 1, c, cps =>
      if isDone c.frontier then ⟨c.state, .completed, cps⟩
      else
        match superstep g c.state c.frontier with
        | .error e => ⟨c.state, .failed e, cps⟩
        | .ok (st', fr') =>
            runLoop g fuel ⟨c.step + 1, st', fr'⟩
              (⟨c.step + 1, st', fr'.map (fun t => t.name)⟩ :: cps)

/-- The RUNNING loop of the concurrent scheduler embedding: the superstep
committed at step `s` delivers its outputs in completion order `perms s`. -/
def runLoopWith (g : Graph) (perms : Int → List Nat) :
    Nat → RunCfg → List Checkpoint → RunResult
  | 0, c, cps =>
      if isDone c.frontier then ⟨c.state, .completed, cps⟩
      else ⟨c.state, .outOfFuel, cps⟩
  | fuel + 1, c, cps =>
      if isDone c.frontier then ⟨c.state, .completed, cps⟩
      else
        match superstepWith g (perms (c.step + 1)) c.state c.frontier with
        | .error e => ⟨c.state, .failed e, cps⟩
        | .ok (st', fr') =>
            runLoopWith g perms fuel ⟨c.step + 1, st', fr'⟩
              (⟨c.step + 1, st', fr'.map (fun t => t.name)⟩ :: cps)

/-- Turn stored next-frontier node names back into payload-free tasks. -/
def taskify (ns : List String) : List Task :=
  ns.map (fun n => ⟨n, []⟩)

/-- Modelled from the spec: `invoke` — record the step −1 checkpoint for the
initial input, derive the first frontier from START's edges, then drive the
loop, §4.3/§6. -/
def invoke (g : Graph) (fuel : Nat) (init : StateV) : RunResult :=
  match nextFrontierFor g init STARTN with
  | .error e => ⟨init, .failed e, []⟩
  | .ok fr0 =>
      let fr := dedupFrontier fr0
      runLoop g fuel ⟨-1, init, fr⟩ [⟨-1, init, fr.map (fun t => t.name)⟩]

/-- Modelled from the spec: one run over a thread's checkpoint store — a
fresh thread records the step −1 checkpoint and starts from START; a thread
with history resumes from its latest checkpoint, re-deriving the frontier
from the stored `next` node list, §4.5. -/
def runThread (g : Graph) (fuel : Nat) (input : StateV)
    (store : List Checkpoint) : RunResult :=
  match store with
  | [] => invoke g fuel input
  | cp :: rest =>
      runLoop g fuel ⟨cp.step, cp.state, taskify cp.next⟩ (cp :: rest)

/-- The checkpoint store of a thread after a sequence of runs, each given a
fuel bound and an input. -/
def threadStore (g : Graph) (requests : List (Nat × StateV)) :
    List Checkpoint :=
  requests.foldl (fun store r => (runThread g r.1 r.2 store).checkpoints) []

/-- Modelled from the spec: `get_state_history` returns a thread's
checkpoints newest-first, §4.5/§6. -/
def get_state_history (store : List Checkpoint) : List Checkpoint :=
  store

/-- Modelled from the spec: run exactly `k` supersteps of the sequential
scheduler (stopping early when done), returning the reached position. -/
def configAfter (g : Graph) : Nat → RunCfg → Except EngineError RunCfg
  | 0, c => .ok c
  | k + 1, c =>
      if isDone c.frontier then .ok c
      else
        match superstep g c.state c.frontier with
        | .error e => .error e
        | .ok cfr => configAfter g k ⟨c.step + 1, cfr.1, cfr.2⟩

/-!  Embeddings of conditional-edge predicates from the repository sources. -/

/-- Embedded from src/archives/p14/p14_4_routing.py, `route_decision`: maps
`state["decision"]` to a node name, falling off the end (Python `None`) for
any other value. -/
def route_decision (state : StateV) : Option String :=
  if getField state "decision" = some (.vStr "story") then some "llm_call_1"
  else if getField state "decision" = some (.vStr "joke") then some "llm_call_2"
  else if getField state "decision" = some (.vStr "poem") then some "llm_call_3"
  else none

/-- The label map of `add_conditional_edges` in p14_4_routing.py. -/
def routeDecisionMap : List (String × String) :=
  [("llm_call_1", "llm_call_1"), ("llm_call_2", "llm_call_2"),
   ("llm_call_3", "llm_call_3")]

/-- Embedded from src/archives/p14/p14_6_Evaluator-Optimizer.py,
`route_joke`: maps `state["funny_or_not"]` to a label, falling off the end
(Python `None`) for any other value. -/
def route_joke (state : StateV) : Option String :=
  if getField state "funny_or_not" = some (.vStr "funny") then some "Accepted"
  else if getField state "funny_or_not" = some (.vStr "not funny") then
    some "Rejected + Feedback"
  else none

/-- The label map of `add_conditional_edges` in p14_6_Evaluator-Optimizer.py. -/
def routeJokeMap : List (String × String) :=
  [("Accepted", ENDN), ("Rejected + Feedback", "llm_call_generator")]

/-!  Concrete graphs used on the spec's end-to-end scenarios. -/

/-- Scenario A node `a`: returns the partial state x := 1. -/
def nodeA : Node :=
  ⟨"a", fun _ => [("x", .vInt 1)]⟩

/-- The integer stored in a field, defaulting to 0. -/
def intField (s : StateV) (k : FieldName) : Int :=
  match getField s k with
  | some (.vInt n) => n
  | _ => 0

/-- Scenario A node `b`: returns the partial state x := state.x + 1. -/
def nodeB : Node :=
  ⟨"b", fun s => [("x", .vInt (intField s "x" + 1))]⟩

/-- Scenario A graph: START→a→b→END over a single replace-reduced field x. -/
def graphA : Graph :=
  { schema := [("x", .replace)]
    nodes := [nodeA, nodeB]
    edges := [(STARTN, .static "a"), ("a", .static "b"), ("b", .static ENDN)] }

/-- The routing graph of p14_4_routing.py, with the LLM router node
modelled as deterministically returning the decision `d` (the LLM client is
an external collaborator outside the engine spec). -/
def routerGraph (d : String) : Graph :=
  { schema := [("input", .replace), ("decision", .replace), ("output", .replace)]
    nodes :=
      [⟨"llm_call_router", fun _ => [("decision", .vStr d)]⟩,
       ⟨"llm_call_1", fun _ => [("output", .vStr "story text")]⟩,
       ⟨"llm_call_2", fun _ => [("output", .vStr "joke text")]⟩,
       ⟨"llm_call_3", fun _ => [("output", .vStr "poem text")]⟩]
    edges :=
      [(STARTN, .static "llm_call_router"),
       ("llm_call_router", .conditional route_decision routeDecisionMap),
       ("llm_call_1", .static ENDN),
       ("llm_call_2", .static ENDN),
       ("llm_call_3", .static ENDN)] }

/-- Scenario C generator node: bumps the try counter. -/
def genNode : Node :=
  ⟨"generator", fun s => [("count", .vInt (intField s "count" + 1))]⟩

/-- Scenario C evaluator node: accepts exactly when the try counter has
reached the threshold stored in field n. -/
def evalNode : Node :=
  ⟨"evaluator", fun s =>
    [("verdict", .vStr (if intField s "n" ≤ intField s "count" then "accept"
                        else "reject"))]⟩

/-- Scenario C conditional predicate: the evaluator's verdict is the label. -/
def routeVerdict (s : StateV) : Option String :=
  match getField s "verdict" with
  | some (.vStr v) => some v
  | _ => none

/-- Scenario C conditional label map `accept ↦ END, reject ↦ generator`. -/
def loopMap : List (String × String) :=
  [("accept", ENDN), ("reject", "generator")]

/-- Scenario C graph: generator→evaluator with the conditional loop edge. -/
def loopGraph : Graph :=
  { schema := [("n", .replace), ("count", .replace), ("verdict", .replace)]
    nodes := [genNode, evalNode]
    edges :=
      [(STARTN, .static "generator"),
       ("generator", .static "evaluator"),
       ("evaluator", .conditional routeVerdict loopMap)] }

/-- Scenario C initial state: threshold n, try counter 0. -/
def loopInit (n : Nat) : StateV :=
  [("n", .vInt n), ("count", .vInt 0)]

/-!  Basic lemmas about the merge machinery. -/

lemma getField_cons (k f : FieldName) (v : Value) (l : StateV) :
    getField ((k, v) :: l) f = if k == f then some v else getField l f := by
  by_cases h : k == f <;> simp [getField, List.find?, h]

lemma tagFrom_filter_lt :
    ∀ (l : List PartialState) (j i : Nat), i < j →
      (tagFrom j l).filter (fun q => q.1 == i) = [] := by
  intro l
  induction l with
  | nil => intro j i _; rfl
  | cons a l ih =>
      intro j i hij
      have hne : (j == i) = false := by
        simp only [beq_eq_false_iff_ne]
        omega
      simp only [tagFrom, List.filter_cons, hne, Bool.false_eq_true, if_false]
      exact ih (j + 1) i (by omega)

lemma tagFrom_regOrder_aux :
    ∀ (l : List PartialState) (j : Nat),
      (List.range' j l.length).flatMap
          (fun i => ((tagFrom j l).filter (fun q => q.1 == i)).flatMap
            (fun q => q.2))
        = l.flatten := by
  intro l
  induction l with
  | nil => intro j; rfl
  | cons a l ih =>
      intro j
      simp only [List.length_cons, List.range'_succ, List.flatMap_cons]
      have h1 : ((tagFrom j (a :: l)).filter (fun q => q.1 == j)).flatMap
          (fun q => q.2) = a := by
        simp only [tagFrom, List.filter_cons, beq_self_eq_true, if_true]
        rw [tagFrom_filter_lt l (j + 1) j (by omega)]
        simp
      have h2 : (List.range' (j + 1) l.length).flatMap
            (fun i => ((tagFrom j (a :: l)).filter (fun q => q.1 == i)).flatMap
              (fun q => q.2))
          = (List.range' (j + 1) l.length).flatMap
            (fun i => ((tagFrom (j + 1) l).filter (fun q => q.1 == i)).flatMap
              (fun q => q.2)) := by
        apply List.flatMap_congr
        intro i hi
        have hji : (j == i) = false := by
          simp only [beq_eq_false_iff_ne]
          rcases List.mem_range'.mp hi with ⟨t, _, rfl⟩
          omega
        simp [tagFrom, List.filter_cons, hji]
      rw [h1, h2, ih (j + 1), List.flatten_cons]

lemma regOrder_tagFrom (l : List PartialState) :
    regOrderWrites l.length (tagFrom 0 l) = l.flatten := by
  have := tagFrom_regOrder_aux l 0
  rwa [regOrderWrites, List.range_eq_range']

lemma filter_key_nodup {e : TaggedWrites}
    (hnd : (e.map Prod.fst).Nodup) (i : Nat) :
    e.filter (fun q => q.1 == i) = []
      ∨ ∃ x, e.filter (fun q => q.1 == i) = [x] := by
  induction e with
  | nil => exact Or.inl rfl
  | cons q e ih =>
      simp only [List.map_cons, List.nodup_cons] at hnd
      by_cases hq : (q.1 == i) = true
      · refine Or.inr ⟨q, ?_⟩
        simp only [List.filter_cons, hq, if_true]
        have : e.filter (fun p => p.1 == i) = [] := by
          rw [List.filter_eq_nil_iff]
          intro z hz hzb
          apply hnd.1
          have : z.1 = i := by simpa using hzb
          have hqi : q.1 = i := by simpa using hq
          rw [hqi, ← this]
          exact List.mem_map_of_mem Prod.fst hz
        rw [this]
      · simp only [List.filter_cons, hq, if_false]
        exact ih hnd.2

lemma tagFrom_map_fst :
    ∀ (l : List PartialState) (j : Nat),
      (tagFrom j l).map Prod.fst = List.range' j l.length := by
  intro l
  induction l with
  | nil => intro j; rfl
  | cons a l ih => intro j; simp [tagFrom, List.range'_succ, ih (j + 1)]

lemma tagFrom_fst_nodup (l : List PartialState) :
    ((tagFrom 0 l).map Prod.fst).Nodup := by
  rw [tagFrom_map_fst]
  exact List.nodup_range' ..

lemma filter_eq_of_perm_keys {d e : TaggedWrites} (h : d.Perm e)
    (hnd : (e.map Prod.fst).Nodup) (i : Nat) :
    d.filter (fun q => q.1 == i) = e.filter (fun q => q.1 == i) := by
  have hp := h.filter (fun q => q.1 == i)
  rcases filter_key_nodup hnd i with he | ⟨x, he⟩
  · rw [he] at hp ⊢
    exact List.perm_nil.mp hp
  · rw [he] at hp ⊢
    exact List.perm_singleton.mp hp

lemma regOrder_of_perm {l : List PartialState} {d : TaggedWrites}
    (h : d.Perm (tagFrom 0 l)) :
    regOrderWrites l.length d = l.flatten := by
  rw [← regOrder_tagFrom l]
  unfold regOrderWrites
  apply List.flatMap_congr
  intro i _
  rw [filter_eq_of_perm_keys h (tagFrom_fst_nodup l) i]

lemma range_filterMap_getElem :
    ∀ {α : Type} (l : List α),
      (List.range l.length).filterMap (fun i => l[i]?) = l := by
  intro α l
  induction l with
  | nil => rfl
  | cons a l ih =>
      rw [List.length_cons, List.range_succ_eq_map, List.filterMap_cons]
      simp only [List.getElem?_cons_zero, List.filterMap_map]
      have : (fun i => (a :: l)[i]?) ∘ Nat.succ = fun i => l[i]? := by
        funext i
        simp
      rw [this, ih]

lemma applyPerm_perm (p : List Nat) (l : TaggedWrites) :
    (applyPerm p l).Perm l := by
  unfold applyPerm
  split
  · next h =>
      have := h.filterMap (fun i => l[i]?)
      rwa [range_filterMap_getElem l] at this
  · exact List.Perm.refl l

lemma getField_commit_absent {schema : StateSchema} {old : StateV} {k : Nat}
    {d : TaggedWrites} {f : FieldName}
    (h : ∀ q ∈ schema, q.1 ≠ f) :
    getField (commitTagged schema old k d) f = none := by
  induction schema with
  | nil => rfl
  | cons fr rest ih =>
      have hfr : fr.1 ≠ f := h fr (List.mem_cons_self fr rest)
      have hfrb : (fr.1 == f) = false := by simpa using hfr
      rw [commitTagged, List.filterMap_cons]
      cases hr : (reduceContribs fr.2 (getField old fr.1)
          (contribsFor fr.2 fr.1 k d)).map (fun v => (fr.1, v)) with
      | none =>
          exact ih (fun q hq => h q (List.mem_cons_of_mem fr hq))
      | some e =>
          rcases Option.map_eq_some'.mp hr with ⟨v, _, rfl⟩
          rw [getField_cons, hfrb, if_neg (by simp)]
          exact ih (fun q hq => h q (List.mem_cons_of_mem fr hq))

lemma getField_commitTagged {schema : StateSchema} {old : StateV} {k : Nat}
    {d : TaggedWrites} {f : FieldName} {r : Reducer}
    (hnd : (schema.map Prod.fst).Nodup) (hmem : (f, r) ∈ schema) :
    getField (commitTagged schema old k d) f
      = reduceContribs r (getField old f) (contribsFor r f k d) := by
  induction schema with
  | nil => cases hmem
  | cons fr rest ih =>
      simp only [List.map_cons, List.nodup_cons] at hnd
      rcases List.mem_cons.mp hmem with hhd | htl
      · subst hhd
        rw [commitTagged, List.filterMap_cons]
        cases hr : (reduceContribs r (getField old f)
            (contribsFor r f k d)).map (fun v => (f, v)) with
        | none =>
            have hz : reduceContribs r (getField old f)
                (contribsFor r f k d) = none := by
              exact Option.map_eq_none'.mp hr
            rw [hz]
            apply getField_commit_absent
            intro q hq hqf
            have hmm : q.1 ∈ rest.map Prod.fst :=
              List.mem_map_of_mem Prod.fst hq
            exact hnd.1 (hqf ▸ hmm)
        | some e =>
            rcases Option.map_eq_some'.mp hr with ⟨v, hv, rfl⟩
            rw [getField_cons, if_pos (by simp), hv]
      · have hne : fr.1 ≠ f := by
          intro hq
          apply hnd.1
          rw [hq]
          exact List.mem_map_of_mem Prod.fst htl
        rw [commitTagged, List.filterMap_cons]
        cases hr : (reduceContribs fr.2 (getField old fr.1)
            (contribsFor fr.2 fr.1 k d)).map (fun v => (fr.1, v)) with
        | none => exact ih hnd.2 htl
        | some e =>
            rcases Option.map_eq_some'.mp hr with ⟨v, _, rfl⟩
            rw [getField_cons, if_neg (by simpa using hne)]
            exact ih hnd.2 htl

lemma mem_regOrder {x : FieldName × Value} {k : Nat} {d : TaggedWrites}
    (hx : x ∈ regOrderWrites k d) : x ∈ d.flatMap (fun p => p.2) := by
  unfold regOrderWrites at hx
  rcases List.mem_flatMap.mp hx with ⟨i, _, hxi⟩
  rcases List.mem_flatMap.mp hxi with ⟨p, hp, hxp⟩
  exact List.mem_flatMap.mpr ⟨p, (List.mem_filter.mp hp).1, hxp⟩

lemma writesFor_regOrder_nil {f : FieldName} {k : Nat} {d : TaggedWrites}
    (hzero : writesFor f (d.flatMap (fun p => p.2)) = []) :
    writesFor f (regOrderWrites k d) = [] := by
  unfold writesFor at hzero ⊢
  rw [List.map_eq_nil_iff] at hzero ⊢
  rw [List.filter_eq_nil_iff] at hzero ⊢
  intro a ha
  exact hzero a (mem_regOrder ha)

/-!  Order-tolerance of reducers and the concurrent/sequential equivalence. -/

/-- Modelled from the spec: the §3/§5 requirement on `custom` reducers —
the user merge function is commutative and associative; the built-in
reducers carry their own engine-fixed order discipline. -/
def ReducerOK : Reducer → Prop
  | .custom f _ => (∀ a b, f a b = f b a) ∧ (∀ a b c, f (f a b) c = f a (f b c))
  | _ => True

lemma foldl_perm_of_comm_assoc {f : Value → Value → Value}
    (hc : ∀ a b, f a b = f b a) (ha : ∀ a b c, f (f a b) c = f a (f b c))
    {l₁ l₂ : List Value} (h : l₁.Perm l₂) (z : Value) :
    l₁.foldl f z = l₂.foldl f z := by
  refine h.foldl_eq' ?_ z
  intro x _ y _ w
  rw [ha, ha, hc x y]

lemma commit_perm (schema : StateSchema) (old : StateV)
    (outs : List PartialState) (d : TaggedWrites)
    (h : d.Perm (tagFrom 0 outs))
    (hok : ∀ q ∈ schema, ReducerOK q.2) :
    commitTagged schema old outs.length d
      = commitTagged schema old outs.length (tagFrom 0 outs) := by
  unfold commitTagged
  apply List.filterMap_congr
  intro fr hfr
  have hcs : reduceContribs fr.2 (getField old fr.1)
        (contribsFor fr.2 fr.1 outs.length d)
      = reduceContribs fr.2 (getField old fr.1)
        (contribsFor fr.2 fr.1 outs.length (tagFrom 0 outs)) := by
    cases hfr2 : fr.2 with
    | replace =>
        unfold contribsFor
        rw [regOrder_of_perm h, regOrder_of_perm (List.Perm.refl _)]
    | append =>
        unfold contribsFor
        rw [regOrder_of_perm h, regOrder_of_perm (List.Perm.refl _)]
    | custom fn dflt =>
        have hperm : (writesFor fr.1 (d.flatMap (fun p => p.2))).Perm
            (writesFor fr.1 ((tagFrom 0 outs).flatMap (fun p => p.2))) := by
          unfold writesFor
          exact ((h.flatMap_right (fun p => p.2)).filter _).map _
        rcases hok fr hfr with hfrok
        rw [hfr2] at hfrok
        unfold contribsFor
        cases h1 : writesFor fr.1 (d.flatMap (fun p => p.2)) with
        | nil =>
            rw [h1] at hperm
            rw [List.perm_nil.mp hperm.symm]
        | cons c cs =>
            rw [h1] at hperm
            cases h2 : writesFor fr.1 ((tagFrom 0 outs).flatMap (fun p => p.2)) with
            | nil =>
                rw [h2] at hperm
                exact absurd (List.perm_nil.mp hperm) (by simp)
            | cons c' cs' =>
                rw [h2] at hperm
                show some _ = some _
                rw [foldl_perm_of_comm_assoc hfrok.1 hfrok.2 hperm]
  rw [hcs]

lemma superstepWith_eq (g : Graph) (p : List Nat) (st : StateV)
    (fr : List Task) (hok : ∀ q ∈ g.schema, ReducerOK q.2) :
    superstepWith g p st fr = superstep g st fr := by
  unfold superstepWith superstep mergeFrontier
  rw [commit_perm g.schema st (runTasks g st fr) _
    (applyPerm_perm p (tagFrom 0 (runTasks g st fr))) hok]

lemma runLoopWith_eq (g : Graph) (perms : Int → List Nat)
    (hok : ∀ q ∈ g.schema, ReducerOK q.2) :
    ∀ (fuel : Nat) (c : RunCfg) (cps : List Checkpoint),
      runLoopWith g perms fuel c cps = runLoop g fuel c cps := by
  intro fuel
  induction fuel with
  | zero => intro c cps; rfl
  | succ fuel ih =>
      intro c cps
      by_cases hd : isDone c.frontier
      · simp [runLoopWith, runLoop, hd]
      · simp only [runLoopWith, runLoop, hd, Bool.false_eq_true, if_false]
        rw [superstepWith_eq g _ _ _ hok]
        cases superstep g c.state c.frontier with
        | error e => rfl
        | ok pr => exact ih _ _

/-!  Counting support for dynamic fan-out into an `append` field. -/

/-- Length of a field value seen as a list of atoms (absent fields count 0). -/
def atomsLenO : Option Value → Nat
  | none => 0
  | some v => (asAtoms v).length

lemma writesFor_append {f : FieldName} (ws₁ ws₂ : PartialState) :
    writesFor f (ws₁ ++ ws₂) = writesFor f ws₁ ++ writesFor f ws₂ := by
  unfold writesFor
  rw [List.filter_append, List.map_append]

lemma writesFor_flatten_singles {F : FieldName} :
    ∀ (outs : List PartialState),
      (∀ o ∈ outs, ∃ a : Atom, o = [(F, Value.vList [a])]) →
      ∃ atoms : List Atom,
        writesFor F outs.flatten = atoms.map (fun a => Value.vList [a])
          ∧ atoms.length = outs.length := by
  intro outs
  induction outs with
  | nil => intro _; exact ⟨[], rfl, rfl⟩
  | cons o outs ih =>
      intro h
      rcases h o (List.mem_cons_self o outs) with ⟨a, rfl⟩
      rcases ih (fun o' ho' => h o' (List.mem_cons_of_mem _ ho')) with
        ⟨atoms, hw, hl⟩
      refine ⟨a :: atoms, ?_, by simp [hl]⟩
      rw [List.flatten_cons, writesFor_append, hw]
      simp [writesFor]

lemma flatMap_asAtoms_singles (atoms : List Atom) :
    ((atoms.map (fun a => Value.vList [a])).flatMap asAtoms) = atoms := by
  induction atoms with
  | nil => rfl
  | cons a atoms ih => simp [asAtoms, ih]

/-- A one-node graph whose conditional predicate returns the label "zzz",
which is absent from its label map — the graph compiles (all node references
resolve) but the absent label is only seen when the edge is evaluated. -/
def absentLabelGraph : Graph :=
  { schema := [("x", .replace)]
    nodes := [⟨"n", fun _ => [("x", .vInt 1)]⟩]
    edges := [(STARTN, .static "n"),
              ("n", .conditional (fun _ => some "zzz") [("accept", ENDN)])] }

/-!  Claim theorems. -/

/-- C1: for the two-node sequential graph START→a→b→END over a single
replace-reduced field x, with `a` returning x:=1 and `b` returning
x:=state.x+1, invoking with x:=0 completes and yields x = 2; and in general
a replace-reduced field whose superstep has a sole writer takes that
writer's value as the value seen by the next superstep. -/
theorem c1_sequential_scenario :
    getField (invoke graphA 3 [("x", Value.vInt 0)]).state "x"
        = some (Value.vInt 2)
      ∧ (invoke graphA 3 [("x", Value.vInt 0)]).status = RunStatus.completed
      ∧ ∀ (old : Option Value) (v : Value),
          reduceContribs Reducer.replace old [v] = some v :=
  ⟨rfl, rfl, fun _ _ => rfl⟩

/-- C2: if a dynamic fan-out produces k tasks all targeting node W, and W
writes exactly one element to an append-reduced field F, then the
post-merge value of F after that superstep contains exactly k new elements,
for every delivery/completion order of the k task instances. -/
theorem c2_fanout_append_count (g : Graph) (F : FieldName) (W : String)
    (ps : List PartialState) (p : List Nat) (st : StateV)
    (hnd : (g.schema.map Prod.fst).Nodup)
    (hmem : (F, Reducer.append) ∈ g.schema)
    (hbody : ∀ q ∈ ps, ∃ a : Atom,
      bodyOf g W (overlay st q) = [(F, Value.vList [a])]) :
    atomsLenO (getField (mergeFrontier g p st
        (ps.map (fun q => (⟨W, q⟩ : Task)))) F)
      = atomsLenO (getField st F) + ps.length := by
  have houts : runTasks g st (ps.map (fun q => (⟨W, q⟩ : Task)))
      = ps.map (fun q => bodyOf g W (overlay st q)) := by
    unfold runTasks
    rw [List.map_map]
    rfl
  have hsingles : ∀ o ∈ ps.map (fun q => bodyOf g W (overlay st q)),
      ∃ a : Atom, o = [(F, Value.vList [a])] := by
    intro o ho
    rcases List.mem_map.mp ho with ⟨q, hq, rfl⟩
    exact hbody q hq
  simp only [mergeFrontier]
  rw [houts]
  rw [getField_commitTagged hnd hmem]
  show atomsLenO (reduceContribs Reducer.append (getField st F)
    (writesFor F (regOrderWrites (ps.map (fun q => bodyOf g W (overlay st q))).length
      (applyPerm p (tagFrom 0 (ps.map (fun q => bodyOf g W (overlay st q)))))))) = _
  rw [regOrder_of_perm (applyPerm_perm p
    (tagFrom 0 (ps.map (fun q => bodyOf g W (overlay st q)))))]
  rcases writesFor_flatten_singles _ hsingles with ⟨atoms, hw, hlen⟩
  rw [hw]
  have hlen2 : atoms.length = ps.length := by
    rw [hlen, List.length_map]
  cases atoms with
  | nil =>
      have : ps.length = 0 := by simpa using hlen2.symm
      simp [reduceContribs, this]
  | cons a rest =>
      simp only [List.map_cons, reduceContribs]
      rw [show (Value.vList [a] :: rest.map (fun a => Value.vList [a]))
          = ((a :: rest).map (fun a => Value.vList [a])) from rfl]
      rw [flatMap_asAtoms_singles]
      rw [← hlen2]
      cases hold : getField st F with
      | none => simp [atomsLenO, asAtoms]
      | some v => simp [atomsLenO, asAtoms]

/-- C2 witness: three fan-out tasks into an append field, delivered in the
completion order [2,0,1], add exactly three elements. -/
theorem c2_fanout_append_count_witness :
    (([("done", Reducer.append)] : StateSchema).map Prod.fst).Nodup
    ∧ (("done", Reducer.append) ∈ ([("done", Reducer.append)] : StateSchema))
    ∧ atomsLenO (getField (mergeFrontier
        ⟨[("done", Reducer.append)],
         [⟨"w", fun s => [("done", Value.vList [Atom.aInt (intField s "item")])]⟩],
         []⟩
        [2, 0, 1] []
        ([[("item", Value.vInt 1)], [("item", Value.vInt 2)],
          [("item", Value.vInt 3)]].map (fun q => (⟨"w", q⟩ : Task)))) "done")
      = atomsLenO (getField ([] : StateV) "done") + 3 := by
  refine ⟨by decide, List.mem_singleton.mpr rfl, ?_⟩
  exact c2_fanout_append_count
    ⟨[("done", Reducer.append)],
     [⟨"w", fun s => [("done", Value.vList [Atom.aInt (intField s "item")])]⟩],
     []⟩
    "done" "w"
    [[("item", Value.vInt 1)], [("item", Value.vInt 2)],
     [("item", Value.vInt 3)]]
    [2, 0, 1] []
    (by decide) (List.mem_singleton.mpr rfl)
    (by
      intro q hq
      fin_cases hq
      · exact ⟨Atom.aInt 1, rfl⟩
      · exact ⟨Atom.aInt 2, rfl⟩
      · exact ⟨Atom.aInt 3, rfl⟩)

/-- C3: for every graph whose custom reducers are commutative and
associative (order-tolerant), the concurrent scheduler embedding — frontier
outputs delivered to the Channels in an arbitrary completion order per
superstep — is extensionally equal to the sequential embedding: final
state, status and checkpoints all coincide, for every fuel bound,
start position and completion-order choice. -/
theorem c3_concurrency_transparency (g : Graph) (perms : Int → List Nat)
    (fuel : Nat) (c : RunCfg) (cps : List Checkpoint)
    (hok : ∀ q ∈ g.schema, ReducerOK q.2) :
    runLoopWith g perms fuel c cps = runLoop g fuel c cps :=
  runLoopWith_eq g perms hok fuel c cps

/-- C3 witness: the scenario-A graph run with a nontrivial completion-order
oracle agrees with the sequential run. -/
theorem c3_concurrency_transparency_witness :
    (∀ q ∈ graphA.schema, ReducerOK q.2)
    ∧ runLoopWith graphA (fun _ => [0]) 3
        ⟨-1, [("x", Value.vInt 0)], [⟨"a", []⟩]⟩ []
      = runLoop graphA 3 ⟨-1, [("x", Value.vInt 0)], [⟨"a", []⟩]⟩ [] := by
  have hok : ∀ q ∈ graphA.schema, ReducerOK q.2 := by
    intro q hq
    rcases List.mem_singleton.mp hq with rfl
    trivial
  exact ⟨hok, c3_concurrency_transparency graphA (fun _ => [0]) 3
    ⟨-1, [("x", Value.vInt 0)], [⟨"a", []⟩]⟩ [] hok⟩

/-- C8: a declared state field that receives zero buffered contributions in
a superstep keeps exactly its prior value across `commit` — untouched fields
are not reset (and a field that was absent stays absent rather than being
filled with a default). -/
theorem c8_zero_contribution_frame (schema : StateSchema) (old : StateV)
    (k : Nat) (d : TaggedWrites) (f : FieldName) (r : Reducer)
    (hnd : (schema.map Prod.fst).Nodup) (hmem : (f, r) ∈ schema)
    (hzero : writesFor f (d.flatMap (fun p => p.2)) = []) :
    getField (commitTagged schema old k d) f = getField old f := by
  rw [getField_commitTagged hnd hmem]
  have hco : contribsFor r f k d = [] := by
    cases r with
    | custom fn dflt => exact hzero
    | replace => exact writesFor_regOrder_nil hzero
    | append => exact writesFor_regOrder_nil hzero
  rw [hco]
  rfl

/-- C8 witness: a superstep writing only to x leaves the append field y at
its prior value. -/
theorem c8_zero_contribution_frame_witness :
    writesFor "y" (([(0, [("x", Value.vInt 5)])] : TaggedWrites).flatMap
        (fun p => p.2)) = []
    ∧ getField (commitTagged [("x", Reducer.replace), ("y", Reducer.append)]
        [("y", Value.vList [Atom.aStr "a"])] 1 [(0, [("x", Value.vInt 5)])]) "y"
      = getField [("y", Value.vList [Atom.aStr "a"])] "y" :=
  ⟨rfl, c8_zero_contribution_frame
    [("x", Reducer.replace), ("y", Reducer.append)]
    [("y", Value.vList [Atom.aStr "a"])] 1 [(0, [("x", Value.vInt 5)])]
    "y" Reducer.append (by decide)
    (List.mem_cons_of_mem _ (List.mem_singleton.mpr rfl)) rfl⟩

/-- C10: the conditional-edge predicates `route_decision` (p14_4) and
`route_joke` (p14_6) are partial over their state types: a state whose
decision field is outside {story, joke, poem}, or whose funny_or_not field
is outside {funny, not funny}, makes them return no label (Python None), a
value absent from their label maps, so the absent-label error branch of
conditional-edge evaluation is reachable at run time. -/
theorem c10_route_predicates_partial :
    route_decision [("decision", Value.vStr "essay")] = none
    ∧ route_joke [("funny_or_not", Value.vStr "hilarious")] = none
    ∧ evalEdge [("decision", Value.vStr "essay")]
        (EdgeKind.conditional route_decision routeDecisionMap)
      = Except.error (EngineError.configurationError
          "conditional edge produced no label") :=
  ⟨rfl, rfl, rfl⟩

/-- C6 counterexample: `ConfigurationError` is raised at run time, refuting
the claim's taxonomy part ("always raised at compile time, never at run
time"): a graph whose conditional predicate returns a label absent from its
map builds and starts fine, and the engine raises the configuration error
only while running — here during `invoke`, after the first superstep. -/
theorem c6_counterexample_runtime_configuration_error :
    (invoke absentLabelGraph 2 []).status
      = RunStatus.failed (EngineError.configurationError "label not in map: zzz")
    ∧ (invoke (routerGraph "essay") 3 [("input", Value.vStr "paper")]).status
      = RunStatus.failed (EngineError.configurationError
          "conditional edge produced no label") :=
  ⟨rfl, rfl⟩

/-- C6 amended: whenever a conditional-edge predicate returns a label
absent from its label map (or no label at all), the engine raises
`ConfigurationError` at the point of evaluation — it never silently falls
through with no successor; since predicates are evaluated while the run is
in progress, this error class is raised at run time, not compile time. -/
theorem c6_amended_absent_label_raises (pred : StateV → Option String)
    (m : List (String × String)) (st : StateV)
    (h : ∀ l, pred st = some l → m.find? (fun q => q.1 == l) = none) :
    ∃ msg, evalEdge st (EdgeKind.conditional pred m)
      = Except.error (EngineError.configurationError msg) := by
  cases hp : pred st with
  | none =>
      refine ⟨"conditional edge produced no label", ?_⟩
      simp [evalEdge, hp]
  | some l =>
      refine ⟨"label not in map: " ++ l, ?_⟩
      simp [evalEdge, hp, h l hp]

/-- C6 amended witness: `route_decision` on decision = "essay" returns no
label and edge evaluation raises a configuration error. -/
theorem c6_amended_absent_label_raises_witness :
    (∀ l, route_decision [("decision", Value.vStr "essay")] = some l →
      routeDecisionMap.find? (fun q => q.1 == l) = none)
    ∧ ∃ msg, evalEdge [("decision", Value.vStr "essay")]
        (EdgeKind.conditional route_decision routeDecisionMap)
      = Except.error (EngineError.configurationError msg) := by
  have h : ∀ l, route_decision [("decision", Value.vStr "essay")] = some l →
      routeDecisionMap.find? (fun q => q.1 == l) = none := by
    intro l hl
    have hnone : route_decision [("decision", Value.vStr "essay")] = none := rfl
    rw [hnone] at hl
    cases hl
  exact ⟨h, c6_amended_absent_label_raises route_decision routeDecisionMap
    [("decision", Value.vStr "essay")] h⟩

/-!  Shape of a thread's checkpoint store. -/

/-- The step number belonging to the i-th checkpoint of a thread (oldest
first): the pre-execution checkpoint is −1, then 0, 1, …. -/
def stepOfIdx (i : Nat) : Int :=
  (i : Int) - 1

/-- A checkpoint store is well-shaped when, oldest first, its step numbers
are exactly −1, 0, 1, …: consecutive with no gaps, starting at −1. -/
def StoreShape (store : List Checkpoint) : Prop :=
  (store.map (fun cp => cp.step)).reverse
    = (List.range store.length).map stepOfIdx

lemma storeShape_nil : StoreShape [] := rfl

lemma storeShape_cons {store : List Checkpoint} {x : Checkpoint}
    (h : StoreShape store) (hx : x.step = (store.length : Int) - 1) :
    StoreShape (x :: store) := by
  unfold StoreShape at h ⊢
  rw [List.map_cons, List.reverse_cons, h, List.length_cons, List.range_succ,
    List.map_append, hx]
  simp [stepOfIdx]

lemma storeShape_head {cp : Checkpoint} {rest : List Checkpoint}
    (h : StoreShape (cp :: rest)) :
    cp.step = ((cp :: rest).length : Int) - 2 := by
  unfold StoreShape at h
  have h2 := congrArg List.getLast? h
  rw [List.getLast?_reverse, List.map_cons, List.head?_cons,
    List.length_cons, List.range_succ, List.map_append,
    List.map_cons, List.map_nil, List.getLast?_concat] at h2
  have h3 : cp.step = stepOfIdx rest.length := Option.some.inj h2
  rw [List.length_cons, h3]
  unfold stepOfIdx
  push_cast
  omega

lemma runLoop_shape (g : Graph) :
    ∀ (fuel : Nat) (c : RunCfg) (cps : List Checkpoint),
      StoreShape cps → c.step = (cps.length : Int) - 2 →
      StoreShape ((runLoop g fuel c cps).checkpoints) := by
  intro fuel
  induction fuel with
  | zero =>
      intro c cps h _
      by_cases hd : isDone c.frontier <;> simp [runLoop, hd] <;> exact h
  | succ fuel ih =>
      intro c cps h hs
      by_cases hd : isDone c.frontier
      · simp only [runLoop, hd, if_true]
        exact h
      · simp only [runLoop, hd, Bool.false_eq_true, if_false]
        cases hst : superstep g c.state c.frontier with
        | error e => exact h
        | ok pr =>
            rcases pr with ⟨st', fr'⟩
            have h1 : StoreShape
                ((⟨c.step + 1, st', fr'.map (fun t => t.name)⟩ : Checkpoint)
                  :: cps) := by
              refine storeShape_cons h ?_
              show c.step + 1 = (cps.length : Int) - 1
              omega
            have h2 : c.step + 1
                = ((((⟨c.step + 1, st', fr'.map (fun t => t.name)⟩ :
                    Checkpoint) :: cps).length : Int)) - 2 := by
              rw [List.length_cons]
              push_cast
              omega
            exact ih ⟨c.step + 1, st', fr'⟩ _ h1 h2

lemma runThread_shape (g : Graph) (fuel : Nat) (input : StateV)
    (store : List Checkpoint) (h : StoreShape store) :
    StoreShape ((runThread g fuel input store).checkpoints) := by
  cases store with
  | nil =>
      show StoreShape ((invoke g fuel input).checkpoints)
      unfold invoke
      cases hnf : nextFrontierFor g input STARTN with
      | error e => exact storeShape_nil
      | ok fr0 =>
          apply runLoop_shape
          · show StoreShape [⟨-1, input, (dedupFrontier fr0).map (fun t => t.name)⟩]
            unfold StoreShape
            simp only [List.map_cons, List.map_nil, List.reverse_cons,
              List.reverse_nil, List.nil_append, List.length_singleton]
            decide
          · simp
  | cons cp rest =>
      show StoreShape ((runLoop g fuel
        ⟨cp.step, cp.state, taskify cp.next⟩ (cp :: rest)).checkpoints)
      exact runLoop_shape g fuel _ _ h (storeShape_head h)

lemma threadStore_shape_aux (g : Graph) :
    ∀ (requests : List (Nat × StateV)) (store : List Checkpoint),
      StoreShape store →
      StoreShape (requests.foldl
        (fun st r => (runThread g r.1 r.2 st).checkpoints) store) := by
  intro requests
  induction requests with
  | nil => intro store h; exact h
  | cons r rs ih =>
      intro store h
      exact ih _ (runThread_shape g r.1 r.2 store h)

lemma threadStore_shape (g : Graph) (requests : List (Nat × StateV)) :
    StoreShape (threadStore g requests) :=
  threadStore_shape_aux g requests [] storeShape_nil

/-- C4: over every sequence of runs on one thread (fresh start followed by
arbitrary resumed runs), the recorded checkpoint step numbers, read oldest
first, are exactly −1, 0, 1, …: strictly increasing, gap-free, starting at
the −1 pre-execution checkpoint — one checkpoint per completed superstep. -/
theorem c4_checkpoint_step_numbers (g : Graph)
    (requests : List (Nat × StateV)) :
    ((threadStore g requests).map (fun cp => cp.step)).reverse
      = (List.range (threadStore g requests).length).map stepOfIdx :=
  threadStore_shape g requests

lemma chain_desc (n : Nat) :
    List.Chain' (fun a b => a = b + 1)
      (((List.range n).map stepOfIdx).reverse) := by
  induction n with
  | zero => simp
  | succ n ih =>
      rw [List.range_succ, List.map_append, List.reverse_append]
      simp only [List.map_cons, List.map_nil, List.reverse_cons,
        List.reverse_nil, List.nil_append, List.singleton_append]
      rw [List.chain'_cons']
      refine ⟨?_, ih⟩
      intro y hy
      cases n with
      | zero => simp at hy
      | succ m =>
          rw [List.head?_reverse, List.range_succ, List.map_append,
            List.map_cons, List.map_nil, List.getLast?_concat] at hy
          have hym : y = stepOfIdx m := ((by simpa using hy : stepOfIdx m = y)).symm
          rw [hym]
          unfold stepOfIdx
          push_cast
          omega

/-- C9: for every thread with at least one recorded checkpoint,
`get_state_history` returns the checkpoints newest-first: consecutive
strictly decreasing step numbers from the latest checkpoint all the way
down to step −1. -/
theorem c9_history_newest_first (g : Graph) (requests : List (Nat × StateV))
    (hne : threadStore g requests ≠ []) :
    List.Chain' (fun a b => a.step = b.step + 1)
      (get_state_history (threadStore g requests))
    ∧ (get_state_history (threadStore g requests)).getLast?.map
        (fun cp => cp.step) = some (-1) := by
  have hs := threadStore_shape g requests
  unfold StoreShape at hs
  have hmap : (threadStore g requests).map (fun cp => cp.step)
      = ((List.range (threadStore g requests).length).map stepOfIdx).reverse := by
    rw [← hs, List.reverse_reverse]
  constructor
  · show List.Chain' (fun a b => a.step = b.step + 1) (threadStore g requests)
    have hch : List.Chain' (fun a b => a = b + 1)
        ((threadStore g requests).map (fun cp => cp.step)) := by
      rw [hmap]
      exact chain_desc _
    rw [List.chain'_map] at hch
    exact hch
  · show ((threadStore g requests).getLast?.map (fun cp => cp.step))
      = some (-1)
    rw [← List.getLast?_map, hmap, List.getLast?_reverse]
    cases hn : (threadStore g requests).length with
    | zero => exact absurd (List.length_eq_zero.mp hn) hne
    | succ m =>
        rw [List.range_succ_eq_map]
        simp only [List.map_cons, List.head?_cons]
        norm_num [stepOfIdx]

/-- C9 witness: one run of the scenario-A graph gives a nonempty history
satisfying the newest-first consecutive-steps property. -/
theorem c9_history_newest_first_witness :
    threadStore graphA [(3, [("x", Value.vInt 0)])] ≠ []
    ∧ (List.Chain' (fun a b => a.step = b.step + 1)
        (get_state_history (threadStore graphA [(3, [("x", Value.vInt 0)])]))
      ∧ (get_state_history
            (threadStore graphA [(3, [("x", Value.vInt 0)])])).getLast?.map
          (fun cp => cp.step) = some (-1)) :=
  ⟨by decide, c9_history_newest_first graphA [(3, [("x", Value.vInt 0)])]
    (by decide)⟩

/-!  Resumption: splitting a run at a checkpoint. -/

lemma runLoop_done {g : Graph} (c : RunCfg) (fuel : Nat)
    (cps : List Checkpoint) (hd : isDone c.frontier = true) :
    runLoop g fuel c cps = ⟨c.state, .completed, cps⟩ := by
  cases fuel <;> simp [runLoop, hd]

lemma runLoop_out_indep (g : Graph) :
    ∀ (fuel : Nat) (c : RunCfg) (cps cps' : List Checkpoint),
      (runLoop g fuel c cps).state = (runLoop g fuel c cps').state
      ∧ (runLoop g fuel c cps).status = (runLoop g fuel c cps').status := by
  intro fuel
  induction fuel with
  | zero =>
      intro c cps cps'
      by_cases hd : isDone c.frontier <;> simp [runLoop, hd]
  | succ fuel ih =>
      intro c cps cps'
      by_cases hd : isDone c.frontier
      · simp [runLoop, hd]
      · simp only [runLoop, hd, Bool.false_eq_true, if_false]
        cases hst : superstep g c.state c.frontier with
        | error e => exact ⟨rfl, rfl⟩
        | ok pr =>
            rcases pr with ⟨st', fr'⟩
            exact ih ⟨c.step + 1, st', fr'⟩ _ _

lemma runLoop_shift (g : Graph) :
    ∀ (k n : Nat) (c c' : RunCfg) (cps cps' : List Checkpoint),
      configAfter g k c = Except.ok c' →
      (runLoop g (k + n) c cps).state = (runLoop g n c' cps').state := by
  intro k
  induction k with
  | zero =>
      intro n c c' cps cps' h
      have hc : c = c' := Except.ok.inj h
      subst hc
      rw [Nat.zero_add]
      exact (runLoop_out_indep g n c cps cps').1
  | succ k ih =>
      intro n c c' cps cps' h
      by_cases hd : isDone c.frontier
      · have hc : c = c' := by
          have : configAfter g (k + 1) c = Except.ok c := by
            simp [configAfter, hd]
          rw [this] at h
          exact Except.ok.inj h
        subst hc
        rw [runLoop_done c _ _ hd, runLoop_done c _ _ hd]
      · simp only [configAfter, hd, Bool.false_eq_true, if_false] at h
        cases hst : superstep g c.state c.frontier with
        | error e =>
            rw [hst] at h
            cases h
        | ok pr =>
            rcases pr with ⟨st', fr'⟩
            rw [hst] at h
            have harith : k + 1 + n = (k + n) + 1 := by omega
            rw [harith]
            simp only [runLoop, hd, Bool.false_eq_true, if_false, hst]
            exact ih n ⟨c.step + 1, st', fr'⟩ c' _ cps' h

lemma runLoop_cps_suffix (g : Graph) :
    ∀ (fuel : Nat) (c : RunCfg) (cps : List Checkpoint),
      ∃ pre, (runLoop g fuel c cps).checkpoints = pre ++ cps := by
  intro fuel
  induction fuel with
  | zero =>
      intro c cps
      by_cases hd : isDone c.frontier <;> exact ⟨[], by simp [runLoop, hd]⟩
  | succ fuel ih =>
      intro c cps
      by_cases hd : isDone c.frontier
      · exact ⟨[], by simp [runLoop, hd]⟩
      · simp only [runLoop, hd, Bool.false_eq_true, if_false]
        cases hst : superstep g c.state c.frontier with
        | error e => exact ⟨[], rfl⟩
        | ok pr =>
            rcases pr with ⟨st', fr'⟩
            rcases ih ⟨c.step + 1, st', fr'⟩
              (⟨c.step + 1, st', fr'.map (fun t => t.name)⟩ :: cps) with
              ⟨pre, hpre⟩
            exact ⟨pre ++ [⟨c.step + 1, st', fr'.map (fun t => t.name)⟩],
              by rw [hpre]; simp⟩

/-- C5: resuming from a checkpoint whose stored position is step S with
next node list [b] and continuing produces the same final state as one
uninterrupted run of the same initial input with the same total fuel; and
the resumed run's checkpoint list extends the stored history, so every
checkpoint at step ≤ S — append-reduced field values included — is
reproduced unchanged on replay (node bodies are deterministic functions in
this embedding). -/
theorem c5_resume_equivalence (g : Graph) (m n : Nat) (init input : StateV)
    (fr0 : List Task) (c' : RunCfg) (b : String) (older : List Checkpoint)
    (h0 : nextFrontierFor g init STARTN = Except.ok fr0)
    (h1 : configAfter g m ⟨-1, init, dedupFrontier fr0⟩ = Except.ok c')
    (h2 : c'.frontier = [⟨b, []⟩]) :
    (runThread g n input (⟨c'.step, c'.state, [b]⟩ :: older)).state
      = (invoke g (m + n) init).state
    ∧ ∃ pre, (runThread g n input
          (⟨c'.step, c'.state, [b]⟩ :: older)).checkpoints
        = pre ++ (⟨c'.step, c'.state, [b]⟩ :: older) := by
  have hcfg : (⟨c'.step, c'.state, taskify [b]⟩ : RunCfg) = c' := by
    have : taskify [b] = c'.frontier := by rw [h2]; rfl
    rw [this]
  constructor
  · show (runLoop g n ⟨c'.step, c'.state, taskify [b]⟩
        (⟨c'.step, c'.state, [b]⟩ :: older)).state = _
    rw [hcfg]
    unfold invoke
    rw [h0]
    exact (runLoop_shift g m n ⟨-1, init, dedupFrontier fr0⟩ c' _ _ h1).symm
  · show ∃ pre, (runLoop g n ⟨c'.step, c'.state, taskify [b]⟩
        (⟨c'.step, c'.state, [b]⟩ :: older)).checkpoints = _
    exact runLoop_cps_suffix g n _ _

/-- C5 witness: interrupting the scenario-A run after one superstep at the
checkpoint (step 0, x = 1, next = [b]) and resuming reproduces the
uninterrupted final state. -/
theorem c5_resume_equivalence_witness :
    configAfter graphA 1 ⟨-1, [("x", Value.vInt 0)], dedupFrontier [⟨"a", []⟩]⟩
      = Except.ok ⟨0, [("x", Value.vInt 1)], [⟨"b", []⟩]⟩
    ∧ (runThread graphA 2 []
        (⟨0, [("x", Value.vInt 1)], ["b"]⟩ :: [])).state
      = (invoke graphA (1 + 2) [("x", Value.vInt 0)]).state :=
  ⟨rfl, (c5_resume_equivalence graphA 1 2 [("x", Value.vInt 0)] []
    [⟨"a", []⟩] ⟨0, [("x", Value.vInt 1)], [⟨"b", []⟩]⟩ "b" []
    rfl rfl rfl).1⟩

/-!  The conditional loop of scenario C. -/

/-- Loop state before the first evaluation: threshold n, try counter. -/
def stA (N c : Int) : StateV :=
  [("n", Value.vInt N), ("count", Value.vInt c)]

/-- Loop state after at least one evaluation: threshold, counter, verdict. -/
def stB (N c : Int) (v : String) : StateV :=
  stA N c ++ [("verdict", Value.vStr v)]

lemma loop_gen_A (N c : Int) :
    superstep loopGraph (stA N c) [⟨"generator", []⟩]
      = Except.ok (stA N (c + 1), [⟨"evaluator", []⟩]) := rfl

lemma loop_gen_B (N c : Int) (v : String) :
    superstep loopGraph (stB N c v) [⟨"generator", []⟩]
      = Except.ok (stB N (c + 1) v, [⟨"evaluator", []⟩]) := rfl

lemma loop_eval_body (N c : Int) (st : StateV)
    (hn : getField st "n" = some (Value.vInt N))
    (hc : getField st "count" = some (Value.vInt c)) :
    bodyOf loopGraph "evaluator" (overlay st [])
      = [("verdict", Value.vStr (if N ≤ c then "accept" else "reject"))] := by
  show [("verdict", Value.vStr (if intField (overlay st []) "n"
      ≤ intField (overlay st []) "count" then "accept" else "reject"))] = _
  have h1 : intField (overlay st []) "n" = N := by
    show intField st "n" = N
    unfold intField
    rw [hn]
  have h2 : intField (overlay st []) "count" = c := by
    show intField st "count" = c
    unfold intField
    rw [hc]
  rw [h1, h2]

lemma loop_eval_A_accept (N c : Int) (h : N ≤ c) :
    superstep loopGraph (stA N c) [⟨"evaluator", []⟩]
      = Except.ok (stB N c "accept", [⟨ENDN, []⟩]) := by
  have hb : bodyOf loopGraph "evaluator" (overlay (stA N c) [])
      = [("verdict", Value.vStr "accept")] := by
    rw [loop_eval_body N c (stA N c) rfl rfl, if_pos h]
  unfold superstep runTasks
  simp only [List.map_cons, List.map_nil]
  rw [hb]
  rfl

lemma loop_eval_A_reject (N c : Int) (h : ¬ N ≤ c) :
    superstep loopGraph (stA N c) [⟨"evaluator", []⟩]
      = Except.ok (stB N c "reject", [⟨"generator", []⟩]) := by
  have hb : bodyOf loopGraph "evaluator" (overlay (stA N c) [])
      = [("verdict", Value.vStr "reject")] := by
    rw [loop_eval_body N c (stA N c) rfl rfl, if_neg h]
  unfold superstep runTasks
  simp only [List.map_cons, List.map_nil]
  rw [hb]
  rfl

lemma loop_eval_B_accept (N c : Int) (v : String) (h : N ≤ c) :
    superstep loopGraph (stB N c v) [⟨"evaluator", []⟩]
      = Except.ok (stB N c "accept", [⟨ENDN, []⟩]) := by
  have hb : bodyOf loopGraph "evaluator" (overlay (stB N c v) [])
      = [("verdict", Value.vStr "accept")] := by
    rw [loop_eval_body N c (stB N c v) rfl rfl, if_pos h]
  unfold superstep runTasks
  simp only [List.map_cons, List.map_nil]
  rw [hb]
  rfl

lemma loop_eval_B_reject (N c : Int) (v : String) (h : ¬ N ≤ c) :
    superstep loopGraph (stB N c v) [⟨"evaluator", []⟩]
      = Except.ok (stB N c "reject", [⟨"generator", []⟩]) := by
  have hb : bodyOf loopGraph "evaluator" (overlay (stB N c v) [])
      = [("verdict", Value.vStr "reject")] := by
    rw [loop_eval_body N c (stB N c v) rfl rfl, if_neg h]
  unfold superstep runTasks
  simp only [List.map_cons, List.map_nil]
  rw [hb]
  rfl

lemma loop_runs_to_completion :
    ∀ (r : Nat) (c N : Int) (v : String) (fuel : Nat) (step : Int)
      (cps : List Checkpoint),
      1 ≤ r → c + r = N → 2 * r ≤ fuel →
      (runLoop loopGraph fuel
          ⟨step, stB N c v, [⟨"generator", []⟩]⟩ cps).status
        = RunStatus.completed := by
  intro r
  induction r with
  | zero => intro c N v fuel step cps h1 _ _; omega
  | succ r ih =>
      intro c N v fuel step cps _ h2 h3
      obtain ⟨f, rfl⟩ : ∃ f, fuel = f + 2 := ⟨fuel - 2, by omega⟩
      have hd1 : isDone [(⟨"generator", []⟩ : Task)] = false := rfl
      have hd2 : isDone [(⟨"evaluator", []⟩ : Task)] = false := rfl
      show (runLoop loopGraph (f + 1 + 1)
        ⟨step, stB N c v, [⟨"generator", []⟩]⟩ cps).status = _
      simp only [runLoop, hd1, Bool.false_eq_true, if_false]
      rw [loop_gen_B N c v]
      simp only [runLoop, hd2, Bool.false_eq_true, if_false]
      by_cases hacc : N ≤ c + 1
      · rw [loop_eval_B_accept N (c + 1) v hacc]
        show (runLoop loopGraph f
          ⟨step + 1 + 1, stB N (c + 1) "accept", [⟨ENDN, []⟩]⟩ _).status = _
        rw [runLoop_done ⟨step + 1 + 1, stB N (c + 1) "accept",
          [⟨ENDN, []⟩]⟩ f _ rfl]
      · rw [loop_eval_B_reject N (c + 1) v hacc]
        exact ih (c + 1) N "reject" f _ _ (by omega) (by push_cast at h2 ⊢; omega)
          (by omega)

lemma runLoop_completed_iff (g : Graph) :
    ∀ (fuel : Nat) (c : RunCfg) (cps : List Checkpoint),
      (runLoop g fuel c cps).status = RunStatus.completed
      ↔ ∃ k, k ≤ fuel ∧ ∃ c'', configAfter g k c = Except.ok c''
          ∧ isDone c''.frontier = true := by
  intro fuel
  induction fuel with
  | zero =>
      intro c cps
      by_cases hd : isDone c.frontier
      · simp only [runLoop, hd, if_true]
        exact ⟨fun _ => ⟨0, Nat.le_refl 0, c, rfl, hd⟩, fun _ => trivial⟩
      · simp only [runLoop, hd, Bool.false_eq_true, if_false]
        constructor
        · intro h
          exact RunStatus.noConfusion h
        · rintro ⟨k, hk, c'', hca, hdn⟩
          have hk0 : k = 0 := by omega
          subst hk0
          have hc : c = c'' := Except.ok.inj hca
          subst hc
          exact absurd hdn hd
  | succ fuel ih =>
      intro c cps
      by_cases hd : isDone c.frontier
      · simp only [runLoop, hd, if_true]
        exact ⟨fun _ => ⟨0, by omega, c, rfl, hd⟩, fun _ => trivial⟩
      · simp only [runLoop, hd, Bool.false_eq_true, if_false]
        cases hst : superstep g c.state c.frontier with
        | error e =>
            constructor
            · intro h
              exact RunStatus.noConfusion h
            · rintro ⟨k, hk, c'', hca, hdn⟩
              cases k with
              | zero =>
                  have hc : c = c'' := Except.ok.inj hca
                  subst hc
                  exact absurd hdn hd
              | succ k' =>
                  simp only [configAfter, hd, Bool.false_eq_true,
                    if_false] at hca
                  rw [hst] at hca
                  exact Except.noConfusion hca
        | ok pr =>
            rcases pr with ⟨st', fr'⟩
            constructor
            · intro h
              rcases (ih ⟨c.step + 1, st', fr'⟩ _).mp h with
                ⟨k, hk, c'', hca, hdn⟩
              refine ⟨k + 1, by omega, c'', ?_, hdn⟩
              simp only [configAfter, hd, Bool.false_eq_true, if_false]
              rw [hst]
              exact hca
            · rintro ⟨k, hk, c'', hca, hdn⟩
              cases k with
              | zero =>
                  have hc : c = c'' := Except.ok.inj hca
                  subst hc
                  exact absurd hdn hd
              | succ k' =>
                  simp only [configAfter, hd, Bool.false_eq_true,
                    if_false] at hca
                  rw [hst] at hca
                  exact (ih ⟨c.step + 1, st', fr'⟩ _).mpr
                    ⟨k', by omega, c'', hca, hdn⟩

/-- C7: the generator→evaluator loop with conditional map
accept ↦ END, reject ↦ generator terminates — with the evaluator
deterministically accepting once the try counter reaches N, the run reaches
COMPLETED within 2N+2 supersteps of fuel; and in general a run is COMPLETED
exactly when it reaches, within its fuel bound, a frontier that is empty or
consists solely of END. -/
theorem c7_conditional_loop_terminates :
    (∀ N : Nat, (invoke loopGraph (2 * N + 2) (loopInit N)).status
        = RunStatus.completed)
    ∧ ∀ (g : Graph) (fuel : Nat) (c : RunCfg) (cps : List Checkpoint),
        ((runLoop g fuel c cps).status = RunStatus.completed
          ↔ ∃ k, k ≤ fuel ∧ ∃ c'', configAfter g k c = Except.ok c''
              ∧ isDone c''.frontier = true) := by
  constructor
  · intro N
    show (runLoop loopGraph (2 * N + 1 + 1)
      ⟨-1, stA (N : Int) 0, [⟨"generator", []⟩]⟩
      [⟨-1, loopInit N, ["generator"]⟩]).status = _
    have hd1 : isDone [(⟨"generator", []⟩ : Task)] = false := rfl
    have hd2 : isDone [(⟨"evaluator", []⟩ : Task)] = false := rfl
    simp only [runLoop, hd1, Bool.false_eq_true, if_false]
    rw [loop_gen_A (N : Int) 0]
    simp only [runLoop, hd2, Bool.false_eq_true, if_false]
    by_cases hacc : (N : Int) ≤ 0 + 1
    · rw [loop_eval_A_accept (N : Int) (0 + 1) hacc]
      show (runLoop loopGraph (2 * N)
        ⟨-1 + 1 + 1, stB (N : Int) (0 + 1) "accept", [⟨ENDN, []⟩]⟩ _).status = _
      rw [runLoop_done ⟨-1 + 1 + 1, stB (N : Int) (0 + 1) "accept",
        [⟨ENDN, []⟩]⟩ (2 * N) _ rfl]
    · rw [loop_eval_A_reject (N : Int) (0 + 1) hacc]
      exact loop_runs_to_completion (N - 1) (0 + 1) (N : Int) "reject"
        (2 * N) _ _ (by omega) (by push_cast; omega) (by omega)
  · exact runLoop_completed_iff

end LG
